import Mathlib

/-!
Verification development for the `tetris` falling-block engine
(class `tetris` in the source; the richer two-file variant with invisible
buffer rows, per-kind rotation-state tables and the NES-style randomizer).

The embedding translates the C++ source directly:
 * `Blk`, `shapes`, `get_shape`, `get_rotated`, `get_extent` embed
   `struct block`, the `shapes_` table and the `piece` member functions;
 * the board (`std::vector<std::vector<int>> board_`) is a total function
   `Board = ℕ → ℕ → ℤ`; a cell write is a pointwise functional update;
 * `random_shape`, `new_piece`, `can_move` / `move_piece`,
   `can_rotate` / `rotate_piece`, `clear_line`, `try_remove_line` (split into
   `lines_to_remove`, `find_src`, `compact_loop`, `clear_and_compact`),
   `tick` and the hard-drop branch of `loop` (`drop_loop` / `hard_drop`)
   embed the member functions of the same names; random draws become
   explicit oracle arguments with their support stated as hypotheses;
   the `gameover` / `runtime_error` exceptions become the `SpawnResult`
   sum type.
-/

namespace Tetris

/-- `struct block { int y, x; }`: a (row, column) offset or absolute cell. -/
structure Blk where
  y : Int
  x : Int
deriving DecidableEq

/-- The `shapes_` table: right-handed Nintendo-Rotation-System states for the
seven kinds I, O, J, L, S, Z, T, each an ordered list of rotation states. -/
def shapes : List (List (List Blk)) :=
  [ [ [⟨0, -2⟩, ⟨0, -1⟩, ⟨0, 0⟩, ⟨0, 1⟩],
      [⟨-2, 0⟩, ⟨-1, 0⟩, ⟨0, 0⟩, ⟨1, 0⟩] ],
    [ [⟨0, 0⟩, ⟨0, 1⟩, ⟨1, 0⟩, ⟨1, 1⟩] ],
    [ [⟨1, 1⟩, ⟨0, 1⟩, ⟨0, 0⟩, ⟨0, -1⟩],
      [⟨1, -1⟩, ⟨1, 0⟩, ⟨0, 0⟩, ⟨-1, 0⟩],
      [⟨-1, -1⟩, ⟨0, -1⟩, ⟨0, 0⟩, ⟨0, 1⟩],
      [⟨-1, 1⟩, ⟨-1, 0⟩, ⟨0, 0⟩, ⟨1, 0⟩] ],
    [ [⟨1, -1⟩, ⟨0, -1⟩, ⟨0, 0⟩, ⟨0, 1⟩],
      [⟨-1, -1⟩, ⟨-1, 0⟩, ⟨0, 0⟩, ⟨1, 0⟩],
      [⟨-1, 1⟩, ⟨0, 1⟩, ⟨0, 0⟩, ⟨0, -1⟩],
      [⟨1, 1⟩, ⟨1, 0⟩, ⟨0, 0⟩, ⟨-1, 0⟩] ],
    [ [⟨-1, 0⟩, ⟨0, 0⟩, ⟨0, 1⟩, ⟨1, 1⟩],
      [⟨0, 1⟩, ⟨0, 0⟩, ⟨1, 0⟩, ⟨1, -1⟩] ],
    [ [⟨-1, 1⟩, ⟨0, 1⟩, ⟨0, 0⟩, ⟨1, 0⟩],
      [⟨1, 1⟩, ⟨1, 0⟩, ⟨0, 0⟩, ⟨0, -1⟩] ],
    [ [⟨0, 0⟩, ⟨-1, 0⟩, ⟨0, -1⟩, ⟨0, 1⟩],
      [⟨0, 0⟩, ⟨-1, 0⟩, ⟨1, 0⟩, ⟨0, 1⟩],
      [⟨0, 0⟩, ⟨0, -1⟩, ⟨1, 0⟩, ⟨0, 1⟩],
      [⟨0, 0⟩, ⟨0, -1⟩, ⟨1, 0⟩, ⟨-1, 0⟩] ] ]

/-- `n_shapes_ = shapes_.size()` (= 7). -/
def n_shapes : Nat := shapes.length

/-- Number of rotation states of a kind: `shapes_[shape].size()`. -/
def n_rot (s : Nat) : Nat := (shapes.getD s []).length

/-- `piece::get_shape`: the offset list `shapes_[shape][rotation]`. -/
def get_shape (s rot : Nat) : List Blk := (shapes.getD s []).getD rot []

/-- `piece::get_rotated`: increment (cw) or decrement (ccw) the rotation
index and reduce it modulo the kind's number of rotation states.  For a
nonnegative index and a nonempty state list the C++ truncated `%` on a
nonnegative operand agrees with `Int.emod`. -/
def get_rotated (s rot : Nat) (ccw : Bool) : Nat :=
  (((if ccw then (rot : Int) - 1 else (rot : Int) + 1) + (n_rot s : Int)) % (n_rot s : Int)).toNat

/-- `tetris::random_shape`, with the two uniform draws made explicit oracle
arguments: `d1` is the draw from `{0..n_shapes_}`, `d2` the redraw from
`{0..n_shapes_-1}`; the redraw is used exactly when `d1` hits the extra
slot `n_shapes_` or repeats `prev` (the `prev_shape_` member, an `int`). -/
def random_shape (prev : Int) (d1 d2 : Nat) : Nat :=
  if d1 = n_shapes ∨ (d1 : Int) = prev then d2 else d1

/-- C10: For every kind and every valid rotation index, rotating clockwise
then counter-clockwise (and vice versa) returns the original index, and the
computed index is always a valid index into the kind's rotation-state
list. -/
theorem get_rotated_round_trip :
    ∀ s, s < n_shapes → ∀ rot, rot < n_rot s →
      get_rotated s (get_rotated s rot false) true = rot ∧
      get_rotated s (get_rotated s rot true) false = rot ∧
      get_rotated s rot false < n_rot s ∧
      get_rotated s rot true < n_rot s := by decide

/-- Witness for C10 at kind 0 (I piece), rotation 1. -/
theorem get_rotated_round_trip_witness :
    (0 < n_shapes ∧ 1 < n_rot 0) ∧
      (get_rotated 0 (get_rotated 0 1 false) true = 1 ∧
       get_rotated 0 (get_rotated 0 1 true) false = 1 ∧
       get_rotated 0 1 false < n_rot 0 ∧
       get_rotated 0 1 true < n_rot 0) :=
  ⟨by decide, get_rotated_round_trip 0 (by decide) 1 (by decide)⟩

/-- C4: the reroll policy of `random_shape`.  With the first draw `d1` taken
from `{0..n_shapes}` and the second draw `d2` from `{0..n_shapes-1}`: the
redraw result `d2` is returned exactly when `d1` equals `n_shapes` (the
extra reroll slot) or equals the previous kind, otherwise `d1` itself is
returned; the result is always a valid kind; and after a reroll a repeat of
the previous kind is still possible (witnessed by `prev = 3, d1 = 7,
d2 = 3`). -/
theorem random_shape_policy (prev : Int) (d1 d2 : Nat)
    (h1 : d1 ≤ n_shapes) (h2 : d2 < n_shapes) :
    ((d1 = n_shapes ∨ (d1 : Int) = prev) → random_shape prev d1 d2 = d2) ∧
    (¬(d1 = n_shapes ∨ (d1 : Int) = prev) → random_shape prev d1 d2 = d1) ∧
    random_shape prev d1 d2 < n_shapes ∧
    random_shape 3 7 3 = 3 := by
  refine ⟨fun h => by simp [random_shape, h], fun h => by simp [random_shape, h], ?_, by decide⟩
  by_cases h : d1 = n_shapes ∨ (d1 : Int) = prev
  · simpa [random_shape, h] using h2
  · have hne : d1 ≠ n_shapes := fun hc => h (Or.inl hc)
    simpa [random_shape, h] using lt_of_le_of_ne h1 hne

/-- Witness for C4 at `prev = 2`, `d1 = 2` (repeat, so rerolled), `d2 = 5`. -/
theorem random_shape_policy_witness :
    (2 ≤ n_shapes ∧ 5 < n_shapes) ∧
      (((2 : Nat) = n_shapes ∨ ((2 : Nat) : Int) = (2 : Int)) → random_shape 2 2 5 = 5) ∧
      (¬((2 : Nat) = n_shapes ∨ ((2 : Nat) : Int) = (2 : Int)) → random_shape 2 2 5 = 2) ∧
      random_shape 2 2 5 < n_shapes ∧
      random_shape 3 7 3 = 3 :=
  ⟨by decide, random_shape_policy 2 2 5 (by decide) (by decide)⟩

/-- `struct extent { int y_min, y_max, x_min, x_max; }`. -/
structure Ext where
  y_min : Int
  y_max : Int
  x_min : Int
  x_max : Int
deriving DecidableEq

/-- `piece::get_extent`: bounding box of a rotation state's offsets, computed
exactly as in the source by folding `min`/`max` from the first block. -/
def get_extent (sh : List Blk) : Ext :=
  match sh with
  | [] => ⟨0, 0, 0, 0⟩
  | b :: t =>
    t.foldl (fun e blk => ⟨min e.y_min blk.y, max e.y_max blk.y,
                           min e.x_min blk.x, max e.x_max blk.x⟩)
      ⟨b.y, b.y, b.x, b.x⟩

/-- The board `board_`: a total function from (row, column) to the cell's
color tag (0 = empty).  Rows `0` and `1` are the invisible buffer
(`invisible_lines_ = 2`); row indices grow downward. -/
def Board : Type := Nat → Nat → Int

/-- A single cell write `board_[r][c] = v`. -/
def write_cell (bd : Board) (r c : Nat) (v : Int) : Board :=
  fun r' c' => if r' = r ∧ c' = c then v else bd r' c'

/-- The full game state: `board_`, `curr_piece_` (shape index, rotation
index, anchor location, color), `score_` and `tick_cnt_`. -/
structure GameState where
  board : Board
  shape : Nat
  rotation : Nat
  locY : Int
  locX : Int
  color : Int
  score : Nat
  tickCnt : Nat

/-- `tetris::update_piece(color)` as a function of an arbitrary shape and
anchor: stamp `v` onto every cell `location + block` (no bounds check, as in
the source; a cell is addressed by `Int.toNat`, faithful whenever the piece
is in bounds). -/
def stamp_shape (sh : List Blk) (ly lx : Int) (v : Int) (bd : Board) : Board :=
  sh.foldl (fun b blk => write_cell b (ly + blk.y).toNat (lx + blk.x).toNat v) bd

/-- `tetris::update_piece(color)` for the current piece. -/
def update_piece (st : GameState) (v : Int) : Board :=
  stamp_shape (get_shape st.shape st.rotation) st.locY st.locX v st.board

/-- The net effect of `can_move`/`can_rotate` on the board: the piece is
cleared (`update_piece(0)`) and then restored (`update_piece(color)`). -/
def restamp (st : GameState) : Board :=
  stamp_shape (get_shape st.shape st.rotation) st.locY st.locX st.color (update_piece st 0)

/-- `tetris::check_boundary(b, y, x)` with `board_height_ = BH` and
`width_ = W` (the block plus deltas is already summed by the caller here). -/
def check_boundary (BH W : Nat) (y x : Int) : Bool :=
  decide (0 ≤ y) && decide (y < (BH : Int)) && decide (0 ≤ x) && decide (x < (W : Int))

/-- The collision test of `tetris::can_move(y, x)`: the current piece is
cleared, then every block of the current shape offset by the delta must be
in bounds and land on an empty cell. -/
def can_move (BH W : Nat) (st : GameState) (dy dx : Int) : Bool :=
  let bd0 := update_piece st 0
  (get_shape st.shape st.rotation).all fun blk =>
    check_boundary BH W (st.locY + blk.y + dy) (st.locX + blk.x + dx) &&
      decide (bd0 (st.locY + blk.y + dy).toNat (st.locX + blk.x + dx).toNat = 0)

/-- `tetris::move_piece(y, x)`: on success clear the piece, shift the anchor
and restore it at the new place; on failure the only net effect is
`can_move`'s clear-and-restore of the board. -/
def move_piece (BH W : Nat) (dy dx : Int) (st : GameState) : Bool × GameState :=
  if can_move BH W st dy dx then
    let st1 := { st with board := restamp st }
    let bd0 := update_piece st1 0
    let st2 := { st1 with locY := st1.locY + dy, locX := st1.locX + dx }
    (true, { st2 with board := stamp_shape (get_shape st2.shape st2.rotation)
                                st2.locY st2.locX st2.color bd0 })
  else (false, { st with board := restamp st })

/-- The collision test of `tetris::can_rotate(ccw)`: the current piece is
cleared, then every block of the *rotated* state at the *same* anchor must
be in bounds and land on an empty cell. -/
def can_rotate (BH W : Nat) (st : GameState) (ccw : Bool) : Bool :=
  let bd0 := update_piece st 0
  (get_shape st.shape (get_rotated st.shape st.rotation ccw)).all fun blk =>
    check_boundary BH W (st.locY + blk.y) (st.locX + blk.x) &&
      decide (bd0 (st.locY + blk.y).toNat (st.locX + blk.x).toNat = 0)

/-- `tetris::rotate_piece(ccw)`: on success clear the piece, commit the
rotated index and restore; on failure only `can_rotate`'s
clear-and-restore happens. -/
def rotate_piece (BH W : Nat) (ccw : Bool) (st : GameState) : Bool × GameState :=
  if can_rotate BH W st ccw then
    let st1 := { st with board := restamp st }
    let bd0 := update_piece st1 0
    let st2 := { st1 with rotation := get_rotated st1.shape st1.rotation ccw }
    (true, { st2 with board := stamp_shape (get_shape st2.shape st2.rotation)
                                st2.locY st2.locX st2.color bd0 })
  else (false, { st with board := restamp st })

/-- `tetris::clear_line(y)`: zero the `width_` cells of row `y`. -/
def clear_line (W : Nat) (bd : Board) (y : Nat) : Board :=
  fun r x => if r = y ∧ x < W then 0 else bd r x

/-- The row copy inside `try_remove_line`: `board_[y][x] = board_[from][x]`
for the `width_` columns. -/
def copy_line (W : Nat) (bd : Board) (y src : Nat) : Board :=
  fun r x => if r = y ∧ x < W then bd src x else bd r x

/-- The `from` search of `try_remove_line`: starting from candidate `y - 1`
walk downward over indices that are marked for removal or already moved;
`none` plays the role of the C++ `from` underflowing to `-1`.
`find_src R moved y` inspects candidates `y-1, y-2, ..., 0` in order. -/
def find_src (R : Finset Nat) (moved : Nat → Bool) : Nat → Option Nat
  | 0 => none
  | c + 1 => if c ∈ R ∨ moved c = true then find_src R moved c else some c

/-- The compaction loop of `try_remove_line`: for `y` from the largest
removed row down to `invisible_lines_ + 1 = 3`, pull the nearest usable row
below `y`'s predecessor into row `y` (marking it moved), or clear row `y`
when no source remains. -/
def compact_loop (W : Nat) (R : Finset Nat) : Nat → Board → (Nat → Bool) → Board
  | 0, bd, _ => bd
  | y + 1, bd, moved =>
    if y + 1 < 3 then bd
    else
      match find_src R moved (y + 1) with
      | some s =>
          compact_loop W R y (copy_line W bd (y + 1) s)
            (fun t => if t = s then true else moved t)
      | none => compact_loop W R y (clear_line W bd (y + 1)) moved

/-- The row-removal/compaction operation (the tail of `try_remove_line`
after `lines_to_remove` is known, the spec's `clear_and_compact`): if the
set is nonempty, run the compaction loop from its maximum and finally clear
row `invisible_lines_ = 2`. -/
def clear_and_compact (W : Nat) (R : Finset Nat) (bd : Board) : Board :=
  if h : R.Nonempty then clear_line W (compact_loop W R (R.max' h) bd (fun _ => false)) 2
  else bd

/-- The `std::all_of` row test: every one of the `width_` cells of row `r`
is non-zero. -/
def is_full_row (W : Nat) (bd : Board) (r : Nat) : Bool :=
  decide (∀ x < W, bd r x ≠ 0)

/-- The scan of `try_remove_line`: the full rows among the rows spanned by
the current piece's vertical extent (`location.y + y_min .. location.y +
y_max`; the `Int.toNat` casts are faithful for an in-bounds piece). -/
def lines_to_remove (W : Nat) (st : GameState) : Finset Nat :=
  let ext := get_extent (get_shape st.shape st.rotation)
  (Finset.Icc (st.locY + ext.y_min).toNat (st.locY + ext.y_max).toNat).filter
    (fun r => is_full_row W st.board r = true)

/-- `tetris::try_remove_line`: collect the full rows in the landed piece's
extent; if none, do nothing; otherwise add their count to the score and
compact the board. -/
def try_remove_line (W : Nat) (st : GameState) : GameState :=
  let R := lines_to_remove W st
  if R = ∅ then st
  else { st with score := st.score + R.card, board := clear_and_compact W R st.board }

/-- Result of `tetris::new_piece`: `tooSmall` embeds the
`std::runtime_error("space too small")` configuration failure, `gameOver`
the thrown `gameover` exception (carrying the state at the throw: the piece
fields are already assigned, the board is untouched), and `ok` a successful
spawn with the piece stamped. -/
inductive SpawnResult where
  | tooSmall : SpawnResult
  | gameOver : GameState → SpawnResult
  | ok : GameState → SpawnResult

/-- `tetris::new_piece` with the random draws as explicit arguments:
`sIdx` is `random_shape()`'s result, `rot` the rotation draw from
`{0..n_rot-1}`, `colorD` the color draw from `{1..7}` and `xd` the
horizontal draw from `{x_min..x_max}`.  The anchor row is
`invisible_lines_ - ext.y_min = 2 - ext.y_min`. -/
def new_piece (BH W : Nat) (sIdx rot : Nat) (colorD xd : Int) (st : GameState) : SpawnResult :=
  let st1 : GameState := { st with shape := sIdx, rotation := rot, color := colorD }
  let ext := get_extent (get_shape sIdx rot)
  let xmin : Int := -ext.x_min
  let xmax : Int := (W : Int) - ext.x_max - 1
  let y : Int := 2 - ext.y_min
  if xmin > xmax ∨ y + ext.y_max ≥ (BH : Int) then .tooSmall
  else
    let st2 := { st1 with locY := y, locX := xd }
    if (get_shape sIdx rot).any
        (fun blk => decide (st2.board (y + blk.y).toNat (xd + blk.x).toNat ≠ 0)) then
      .gameOver st2
    else .ok { st2 with board := update_piece st2 colorD }

/-- `move_ticks_ = floor(tick_times_ * move_intervals_) = floor(100 * 0.5)`. -/
def move_ticks : Nat := 50

/-- `tetris::tick`: bump the tick counter; at the threshold reset it and
attempt a one-row downward move; if that fails, remove full lines and spawn
the next piece (draws passed as oracle arguments). -/
def tick (BH W : Nat) (sIdx rot : Nat) (colorD xd : Int) (st : GameState) : SpawnResult :=
  if st.tickCnt + 1 ≥ move_ticks then
    let st1 := { st with tickCnt := 0 }
    match move_piece BH W 1 0 st1 with
    | (true, st2) => .ok st2
    | (false, st2) => new_piece BH W sIdx rot colorD xd (try_remove_line W st2)
  else .ok { st with tickCnt := st.tickCnt + 1 }

/-- The `while (move_piece()) ;` loop of the hard-drop branch of
`tetris::loop` (key `'s'`), with explicit fuel (the loop terminates because
each successful move lowers the in-bounds piece by one row). -/
def drop_loop (BH W : Nat) : Nat → GameState → GameState
  | 0, st => st
  | fuel + 1, st =>
    match move_piece BH W 1 0 st with
    | (true, st') => drop_loop BH W fuel st'
    | (false, st') => st'

/-- The complete hard-drop branch of `tetris::loop`: drop the piece as far
as it goes, then reset `tick_cnt_` to 0.  (Nothing else happens: no
`try_remove_line`, no `new_piece`.) -/
def hard_drop (BH W : Nat) (fuel : Nat) (st : GameState) : GameState :=
  { drop_loop BH W fuel st with tickCnt := 0 }

/-- A piece footprint covers a cell: some block of the shape placed at the
anchor addresses exactly that (row, column). -/
def covers (sh : List Blk) (ly lx : Int) (r c : Nat) : Prop :=
  ∃ blk ∈ sh, (ly + blk.y).toNat = r ∧ (lx + blk.x).toNat = c

instance (sh : List Blk) (ly lx : Int) (r c : Nat) : Decidable (covers sh ly lx r c) := by
  unfold covers; infer_instance

/-- Stamping a shape writes `v` on exactly the covered cells. -/
theorem stamp_shape_apply (sh : List Blk) (ly lx : Int) (v : Int) (bd : Board) (r c : Nat) :
    stamp_shape sh ly lx v bd r c = if covers sh ly lx r c then v else bd r c := by
  induction sh generalizing bd with
  | nil => simp [stamp_shape, covers]
  | cons b t ih =>
    show stamp_shape t ly lx v (write_cell bd (ly + b.y).toNat (lx + b.x).toNat v) r c = _
    rw [ih]
    by_cases ht : covers t ly lx r c
    · simp only [ht, if_pos]
      have : covers (b :: t) ly lx r c := by
        obtain ⟨blk, hblk, he⟩ := ht
        exact ⟨blk, List.mem_cons_of_mem _ hblk, he⟩
      simp [this]
    · by_cases hb : (ly + b.y).toNat = r ∧ (lx + b.x).toNat = c
      · have : covers (b :: t) ly lx r c := ⟨b, List.mem_cons_self _ _, hb.1, hb.2⟩
        simp [ht, this, write_cell, hb]
      · have : ¬covers (b :: t) ly lx r c := by
          rintro ⟨blk, hblk, he⟩
          rcases List.mem_cons.mp hblk with h1 | h1
          · exact hb (h1 ▸ he)
          · exact ht ⟨blk, h1, he⟩
        simp only [this, if_neg, not_false_iff, ht, write_cell, ite_false]
        rw [if_neg]
        rintro ⟨h1, h2⟩
        exact hb ⟨h1.symm, h2.symm⟩

/-- The invariant that the current piece is stamped on the board with its
own color (true in every reachable state between engine operations). -/
def stamped (st : GameState) : Prop :=
  ∀ blk ∈ get_shape st.shape st.rotation,
    st.board (st.locY + blk.y).toNat (st.locX + blk.x).toNat = st.color

instance (st : GameState) : Decidable (stamped st) := by
  unfold stamped; infer_instance

/-- Clear-then-restore (`update_piece(0)` followed by `update_piece(color)`)
leaves the board of a stamped state unchanged. -/
theorem restamp_eq (st : GameState) (h : stamped st) : restamp st = st.board := by
  funext r c
  rw [restamp, stamp_shape_apply, update_piece, stamp_shape_apply]
  by_cases hcov : covers (get_shape st.shape st.rotation) st.locY st.locX r c
  · have hbd : st.board r c = st.color := by
      obtain ⟨blk, hblk, he1, he2⟩ := hcov
      have := h blk hblk
      rwa [he1, he2] at this
    simp [hcov, hbd]
  · simp [hcov]

/-- On a failed `move_piece` the state is returned with only the
clear-and-restore of `can_move` applied, which is the identity on a
stamped state. -/
theorem move_piece_fail_eq (BH W : Nat) (dy dx : Int) (st : GameState) (h : stamped st) :
    (move_piece BH W dy dx st).1 = false → (move_piece BH W dy dx st).2 = st := by
  have hb : { st with board := restamp st } = st := by
    rw [restamp_eq st h]
  intro hf
  rw [move_piece] at hf ⊢
  by_cases hcm : can_move BH W st dy dx = true
  · simp [hcm] at hf
  · simp only [Bool.not_eq_true] at hcm
    simp [hcm, hb]

/-- On a failed `rotate_piece` the state is returned with only the
clear-and-restore of `can_rotate` applied, the identity on a stamped
state. -/
theorem rotate_piece_fail_eq (BH W : Nat) (ccw : Bool) (st : GameState) (h : stamped st) :
    (rotate_piece BH W ccw st).1 = false → (rotate_piece BH W ccw st).2 = st := by
  have hb : { st with board := restamp st } = st := by
    rw [restamp_eq st h]
  intro hf
  rw [rotate_piece] at hf ⊢
  by_cases hcr : can_rotate BH W st ccw = true
  · simp [hcr] at hf
  · simp only [Bool.not_eq_true] at hcr
    simp [hcr, hb]

/-- C3: for every stamped game state, when `move_piece` (`try_move`) or
`rotate_piece` (`try_rotate`) returns failure, the resulting state — board
grid, anchor position, rotation state and color — is exactly the input
state. -/
theorem try_move_try_rotate_fail_unchanged (BH W : Nat) (dy dx : Int) (ccw : Bool)
    (st : GameState) (h : stamped st) :
    ((move_piece BH W dy dx st).1 = false → (move_piece BH W dy dx st).2 = st) ∧
    ((rotate_piece BH W ccw st).1 = false → (rotate_piece BH W ccw st).2 = st) :=
  ⟨move_piece_fail_eq BH W dy dx st h, rotate_piece_fail_eq BH W ccw st h⟩

/-- A concrete stamped state: an O piece resting on the floor of a 5-row,
2-column board (board height 5 = visible 3 + buffer 2). -/
def floorState : GameState :=
  { board := fun r c => if (r = 3 ∨ r = 4) ∧ (c = 0 ∨ c = 1) then 1 else 0,
    shape := 1, rotation := 0, locY := 3, locX := 0, color := 1, score := 0, tickCnt := 0 }

/-- Witness for C3: the floor state is stamped, and the failure-preservation
conclusions hold for a downward move and a rotation there. -/
theorem try_move_try_rotate_fail_unchanged_witness :
    stamped floorState ∧
      (((move_piece 5 2 1 0 floorState).1 = false →
          (move_piece 5 2 1 0 floorState).2 = floorState) ∧
       ((rotate_piece 5 2 false floorState).1 = false →
          (rotate_piece 5 2 false floorState).2 = floorState)) :=
  ⟨by decide, try_move_try_rotate_fail_unchanged 5 2 1 0 false floorState (by decide)⟩

/-- A cell of the board with the current piece cleared
(`update_piece(0)`) is empty iff it was empty before or belongs to the
piece's own footprint. -/
theorem cleared_cell_zero_iff (st : GameState) (r c : Nat) :
    update_piece st 0 r c = 0 ↔
      (st.board r c = 0 ∨ covers (get_shape st.shape st.rotation) st.locY st.locX r c) := by
  rw [update_piece, stamp_shape_apply]
  by_cases hcov : covers (get_shape st.shape st.rotation) st.locY st.locX r c
  · simp [hcov]
  · simp [hcov]

/-- The boolean result of `rotate_piece` is exactly `can_rotate`. -/
theorem rotate_piece_fst (BH W : Nat) (ccw : Bool) (st : GameState) :
    (rotate_piece BH W ccw st).1 = can_rotate BH W st ccw := by
  rw [rotate_piece]
  by_cases hcr : can_rotate BH W st ccw = true
  · simp [hcr]
  · simp only [Bool.not_eq_true] at hcr
    simp [hcr]

/-- C9: `try_rotate` checks the rotated rotation state's offsets at the
unchanged anchor only (no wall-kick): for every stamped state it succeeds
iff every block of the rotated footprint is in bounds and lands on a cell
that is empty or belongs to the piece's current footprint (so it fails
exactly when some rotated cell is out of bounds or overlaps a non-zero cell
not belonging to the piece); on success it commits the rotated index and
leaves the anchor, kind and color unchanged; on failure the state is
unchanged. -/
theorem try_rotate_spec (BH W : Nat) (ccw : Bool) (st : GameState) (h : stamped st) :
    ((rotate_piece BH W ccw st).1 = true ↔
      ∀ blk ∈ get_shape st.shape (get_rotated st.shape st.rotation ccw),
        (0 ≤ st.locY + blk.y ∧ st.locY + blk.y < (BH : Int) ∧
         0 ≤ st.locX + blk.x ∧ st.locX + blk.x < (W : Int)) ∧
        (st.board (st.locY + blk.y).toNat (st.locX + blk.x).toNat = 0 ∨
         covers (get_shape st.shape st.rotation) st.locY st.locX
           (st.locY + blk.y).toNat (st.locX + blk.x).toNat)) ∧
    ((rotate_piece BH W ccw st).1 = true →
      (rotate_piece BH W ccw st).2.rotation = get_rotated st.shape st.rotation ccw ∧
      (rotate_piece BH W ccw st).2.locY = st.locY ∧
      (rotate_piece BH W ccw st).2.locX = st.locX ∧
      (rotate_piece BH W ccw st).2.shape = st.shape ∧
      (rotate_piece BH W ccw st).2.color = st.color) ∧
    ((rotate_piece BH W ccw st).1 = false → (rotate_piece BH W ccw st).2 = st) := by
  refine ⟨?_, ?_, rotate_piece_fail_eq BH W ccw st h⟩
  · rw [rotate_piece_fst, can_rotate, List.all_eq_true]
    apply forall_congr'
    intro blk
    apply imp_congr_right
    intro _
    rw [Bool.and_eq_true, decide_eq_true_eq, cleared_cell_zero_iff]
    have hcb : check_boundary BH W (st.locY + blk.y) (st.locX + blk.x) = true ↔
        (0 ≤ st.locY + blk.y ∧ st.locY + blk.y < (BH : Int) ∧
         0 ≤ st.locX + blk.x ∧ st.locX + blk.x < (W : Int)) := by
      simp [check_boundary, and_assoc]
    rw [hcb]
  · intro htr
    have hcr : can_rotate BH W st ccw = true := by rw [← rotate_piece_fst]; exact htr
    simp [rotate_piece, hcr]

/-- A stamped T piece in open space on the default 22-row, 10-column
board. -/
def openState : GameState :=
  { board := fun r c => if (r = 5 ∧ (c = 4 ∨ c = 5 ∨ c = 6)) ∨ (r = 4 ∧ c = 5) then 3 else 0,
    shape := 6, rotation := 0, locY := 5, locX := 5, color := 3, score := 0, tickCnt := 0 }

/-- Witness for C9 at the open T-piece state (the rotation succeeds
there). -/
theorem try_rotate_spec_witness :
    stamped openState ∧
      (((rotate_piece 22 10 false openState).1 = true ↔
        ∀ blk ∈ get_shape openState.shape
            (get_rotated openState.shape openState.rotation false),
          (0 ≤ openState.locY + blk.y ∧ openState.locY + blk.y < (22 : Int) ∧
           0 ≤ openState.locX + blk.x ∧ openState.locX + blk.x < (10 : Int)) ∧
          (openState.board (openState.locY + blk.y).toNat (openState.locX + blk.x).toNat = 0 ∨
           covers (get_shape openState.shape openState.rotation) openState.locY openState.locX
             (openState.locY + blk.y).toNat (openState.locX + blk.x).toNat)) ∧
       ((rotate_piece 22 10 false openState).1 = true →
         (rotate_piece 22 10 false openState).2.rotation =
           get_rotated openState.shape openState.rotation false ∧
         (rotate_piece 22 10 false openState).2.locY = openState.locY ∧
         (rotate_piece 22 10 false openState).2.locX = openState.locX ∧
         (rotate_piece 22 10 false openState).2.shape = openState.shape ∧
         (rotate_piece 22 10 false openState).2.color = openState.color) ∧
       ((rotate_piece 22 10 false openState).1 = false →
         (rotate_piece 22 10 false openState).2 = openState)) :=
  ⟨by decide, try_rotate_spec 22 10 false openState (by decide)⟩

/-- The extent computed by `get_extent` bounds every block of every catalog
rotation state (checked over the whole finite shape table). -/
theorem extent_bounds : ∀ s < n_shapes, ∀ r < n_rot s, ∀ blk ∈ get_shape s r,
    (get_extent (get_shape s r)).y_min ≤ blk.y ∧ blk.y ≤ (get_extent (get_shape s r)).y_max ∧
    (get_extent (get_shape s r)).x_min ≤ blk.x ∧ blk.x ≤ (get_extent (get_shape s r)).x_max := by
  decide

/-- Every catalog rotation state attains its `y_min`. -/
theorem extent_y_min_attained : ∀ s < n_shapes, ∀ r < n_rot s,
    ∃ blk ∈ get_shape s r, blk.y = (get_extent (get_shape s r)).y_min := by decide

/-- The piece fields of a successful `new_piece`: kind, rotation and color
are the draws, the anchor row is `invisible_lines_ - ext.y_min = 2 -
ext.y_min`, the anchor column is the horizontal draw, and the score is
untouched. -/
theorem new_piece_ok_fields (BH W : Nat) (sIdx rot : Nat) (colorD xd : Int)
    (st stp : GameState) (hok : new_piece BH W sIdx rot colorD xd st = .ok stp) :
    stp.shape = sIdx ∧ stp.rotation = rot ∧ stp.color = colorD ∧
    stp.locY = 2 - (get_extent (get_shape sIdx rot)).y_min ∧ stp.locX = xd ∧
    stp.score = st.score := by
  simp only [new_piece] at hok
  split at hok
  · exact absurd hok (by simp)
  · split at hok
    · exact absurd hok (by simp)
    · simp only [SpawnResult.ok.injEq] at hok
      subst hok
      exact ⟨rfl, rfl, rfl, rfl, rfl, rfl⟩

/-- C5 (amended): for every kind and every rotation state it can spawn
with, a successful spawn places the piece so that its topmost occupied cell
sits at row `invisible_lines_ = 2`, the first *visible* row (not at row 0,
the top of the invisible buffer). -/
theorem spawn_top_at_first_visible_row (BH W : Nat) (sIdx rot : Nat) (colorD xd : Int)
    (st stp : GameState) (hs : sIdx < n_shapes) (hr : rot < n_rot sIdx)
    (hok : new_piece BH W sIdx rot colorD xd st = .ok stp) :
    (∀ blk ∈ get_shape sIdx rot, 2 ≤ stp.locY + blk.y) ∧
    (∃ blk ∈ get_shape sIdx rot, stp.locY + blk.y = 2) := by
  obtain ⟨-, -, -, hY, -, -⟩ := new_piece_ok_fields BH W sIdx rot colorD xd st stp hok
  constructor
  · intro blk hblk
    have h := (extent_bounds sIdx hs rot hr blk hblk).1
    rw [hY]
    omega
  · obtain ⟨blk, hblk, hmin⟩ := extent_y_min_attained sIdx hs rot hr
    exact ⟨blk, hblk, by rw [hY, hmin]; ring⟩

/-- The all-empty initial state (used as spawn input). -/
def emptyState : GameState :=
  { board := fun _ _ => 0, shape := 0, rotation := 0, locY := 0, locX := 0,
    color := 0, score := 0, tickCnt := 0 }

/-- Counterexample to C5 as stated: spawning the O piece on the default
22-row board puts its topmost occupied cell at row 2, and *no* occupied
cell is at row 0, the top of the invisible buffer (the claim asserts the
minimum occupied row is row 0). -/
theorem spawn_top_row_counterexample :
    ∃ stp, new_piece 22 10 1 0 1 4 emptyState = .ok stp ∧
      stp.locY = 2 ∧ (∀ blk ∈ get_shape 1 0, 0 < stp.locY + blk.y) ∧
      (∃ blk ∈ get_shape 1 0, stp.locY + blk.y = 2) :=
  ⟨_, rfl, by decide, by decide, by decide⟩

/-- Witness for C5's amended theorem: the O-piece spawn above. -/
theorem spawn_top_at_first_visible_row_witness :
    ((1 < n_shapes ∧ 0 < n_rot 1) ∧ ∃ stp, new_piece 22 10 1 0 1 4 emptyState = .ok stp) ∧
      ∀ stp, new_piece 22 10 1 0 1 4 emptyState = .ok stp →
        ((∀ blk ∈ get_shape 1 0, 2 ≤ stp.locY + blk.y) ∧
         (∃ blk ∈ get_shape 1 0, stp.locY + blk.y = 2)) :=
  ⟨⟨by decide, _, rfl⟩, fun stp hok =>
    spawn_top_at_first_visible_row 22 10 1 0 1 4 emptyState stp (by decide) (by decide) hok⟩

/-- C6: for every kind and spawnable rotation state, with the horizontal
draw inside its support `[-ext.x_min, width - ext.x_max - 1]`, every
occupied cell of the freshly spawned piece has column index in
`[0, width)`. -/
theorem spawn_in_bounds_x (BH W : Nat) (sIdx rot : Nat) (colorD xd : Int)
    (st stp : GameState) (hs : sIdx < n_shapes) (hr : rot < n_rot sIdx)
    (hxd : -(get_extent (get_shape sIdx rot)).x_min ≤ xd ∧
           xd ≤ (W : Int) - (get_extent (get_shape sIdx rot)).x_max - 1)
    (hok : new_piece BH W sIdx rot colorD xd st = .ok stp) :
    ∀ blk ∈ get_shape sIdx rot, 0 ≤ stp.locX + blk.x ∧ stp.locX + blk.x < (W : Int) := by
  obtain ⟨-, -, -, -, hX, -⟩ := new_piece_ok_fields BH W sIdx rot colorD xd st stp hok
  intro blk hblk
  obtain ⟨-, -, hx1, hx2⟩ := extent_bounds sIdx hs rot hr blk hblk
  rw [hX]
  omega

/-- Witness for C6: the same O-piece spawn, draw `xd = 4`. -/
theorem spawn_in_bounds_x_witness :
    ((1 < n_shapes ∧ 0 < n_rot 1) ∧
      (-(get_extent (get_shape 1 0)).x_min ≤ (4 : Int) ∧
        (4 : Int) ≤ (10 : Int) - (get_extent (get_shape 1 0)).x_max - 1) ∧
      ∃ stp, new_piece 22 10 1 0 1 4 emptyState = .ok stp) ∧
      ∀ stp, new_piece 22 10 1 0 1 4 emptyState = .ok stp →
        ∀ blk ∈ get_shape 1 0, 0 ≤ stp.locX + blk.x ∧ stp.locX + blk.x < (10 : Int) :=
  ⟨⟨by decide, by decide, _, rfl⟩, fun stp hok =>
    spawn_in_bounds_x 22 10 1 0 1 4 emptyState stp (by decide) (by decide) (by decide) hok⟩

/-- C7: `new_piece` signals game-over iff (the configuration check having
passed) some occupied cell of the freshly placed piece overlaps a non-zero
board cell; when it fires, the board grid is exactly the input board
(nothing has been stamped); a successful spawn means no overlap; and a
game-over arising from `tick` is exactly a game-over of the `new_piece`
performed after the failed downward move and the line removal (the spawn
overlap is the engine's sole game-over trigger). -/
theorem spawn_gameover_spec (BH W : Nat) (sIdx rot : Nat) (colorD xd : Int) (st : GameState) :
    (∀ stp, new_piece BH W sIdx rot colorD xd st = .gameOver stp →
      stp.board = st.board ∧
        (get_shape sIdx rot).any (fun blk =>
          decide (st.board ((2 - (get_extent (get_shape sIdx rot)).y_min) + blk.y).toNat
            (xd + blk.x).toNat ≠ 0)) = true) ∧
    (decide (-(get_extent (get_shape sIdx rot)).x_min >
          (W : Int) - (get_extent (get_shape sIdx rot)).x_max - 1 ∨
        (2 - (get_extent (get_shape sIdx rot)).y_min) + (get_extent (get_shape sIdx rot)).y_max ≥
          (BH : Int)) = false →
      (get_shape sIdx rot).any (fun blk =>
        decide (st.board ((2 - (get_extent (get_shape sIdx rot)).y_min) + blk.y).toNat
          (xd + blk.x).toNat ≠ 0)) = true →
      new_piece BH W sIdx rot colorD xd st =
        SpawnResult.gameOver
          { st with
            shape := sIdx
            rotation := rot
            color := colorD
            locY := 2 - (get_extent (get_shape sIdx rot)).y_min
            locX := xd }) ∧
    (∀ stp, new_piece BH W sIdx rot colorD xd st = .ok stp →
      (get_shape sIdx rot).any (fun blk =>
        decide (st.board ((2 - (get_extent (get_shape sIdx rot)).y_min) + blk.y).toNat
          (xd + blk.x).toNat ≠ 0)) = false) ∧
    (∀ stp, tick BH W sIdx rot colorD xd st = .gameOver stp →
      new_piece BH W sIdx rot colorD xd
        (try_remove_line W (move_piece BH W 1 0 { st with tickCnt := 0 }).2) = .gameOver stp) := by
  refine ⟨?_, ?_, ?_, ?_⟩
  · intro stp h
    simp only [new_piece] at h
    split at h
    · exact absurd h (by simp)
    · split at h
      case isTrue hov =>
        simp only [SpawnResult.gameOver.injEq] at h
        subst h
        exact ⟨rfl, hov⟩
      case isFalse hov => exact absurd h (by simp)
  · intro hsmall hover
    have hns : ¬(-(get_extent (get_shape sIdx rot)).x_min >
        (W : Int) - (get_extent (get_shape sIdx rot)).x_max - 1 ∨
        (2 - (get_extent (get_shape sIdx rot)).y_min) + (get_extent (get_shape sIdx rot)).y_max ≥
          (BH : Int)) := of_decide_eq_false hsmall
    simp only [new_piece]
    rw [if_neg hns, if_pos hover]
  · intro stp h
    simp only [new_piece] at h
    split at h
    · exact absurd h (by simp)
    · split at h
      case isTrue hov => exact absurd h (by simp)
      case isFalse hov => exact Bool.not_eq_true _ ▸ eq_false_of_ne_true hov
  · intro stp h
    simp only [tick] at h
    split at h
    case isTrue hth =>
      rcases hm : move_piece BH W 1 0 { st with tickCnt := 0 } with ⟨b, st2⟩
      rw [hm] at h
      cases b
      · simpa using h
      · simp at h
    case isFalse hth => exact absurd h (by simp)

/-- `move_piece` never changes the score. -/
theorem move_piece_score (BH W : Nat) (dy dx : Int) (st : GameState) :
    (move_piece BH W dy dx st).2.score = st.score := by
  by_cases h : can_move BH W st dy dx = true
  · simp [move_piece, h]
  · simp only [Bool.not_eq_true] at h
    simp [move_piece, h]

/-- `rotate_piece` never changes the score. -/
theorem rotate_piece_score (BH W : Nat) (ccw : Bool) (st : GameState) :
    (rotate_piece BH W ccw st).2.score = st.score := by
  by_cases h : can_rotate BH W st ccw = true
  · simp [rotate_piece, h]
  · simp only [Bool.not_eq_true] at h
    simp [rotate_piece, h]

/-- The hard-drop loop never changes the score. -/
theorem drop_loop_score (BH W : Nat) (fuel : Nat) (st : GameState) :
    (drop_loop BH W fuel st).score = st.score := by
  induction fuel generalizing st with
  | zero => rfl
  | succ f ih =>
    rw [drop_loop]
    rcases hm : move_piece BH W 1 0 st with ⟨b, st1⟩
    have hs : st1.score = st.score := by
      have := move_piece_score BH W 1 0 st
      rwa [hm] at this
    cases b
    · exact hs
    · rw [ih st1, hs]

/-- `try_remove_line` adds exactly the number of full rows found in the
landed piece's vertical extent to the score. -/
theorem try_remove_line_score (W : Nat) (st : GameState) :
    (try_remove_line W st).score = st.score + (lines_to_remove W st).card := by
  rw [try_remove_line]
  by_cases h : lines_to_remove W st = ∅
  · simp [h]
  · simp [h]

/-- `new_piece`'s game-over state keeps the input board and score. -/
theorem new_piece_gameOver_fields (BH W : Nat) (sIdx rot : Nat) (colorD xd : Int)
    (st stp : GameState) (h : new_piece BH W sIdx rot colorD xd st = .gameOver stp) :
    stp.board = st.board ∧ stp.score = st.score := by
  simp only [new_piece] at h
  split at h
  · exact absurd h (by simp)
  · split at h
    · simp only [SpawnResult.gameOver.injEq] at h
      subst h
      exact ⟨rfl, rfl⟩
    · exact absurd h (by simp)

/-- C8: the score is monotonically non-decreasing across every engine
operation; the line-clear step (`try_remove_line`) increases it by exactly
the number of full rows in the landed piece's vertical extent, and when
that number is zero the whole state — board included — is bit-for-bit
unchanged. -/
theorem score_monotone_line_clear_exact (BH W : Nat) (dy dx : Int) (ccw : Bool)
    (sIdx rot : Nat) (colorD xd : Int) (fuel : Nat) (st : GameState) :
    (try_remove_line W st).score = st.score + (lines_to_remove W st).card ∧
    (lines_to_remove W st = ∅ → try_remove_line W st = st) ∧
    (move_piece BH W dy dx st).2.score = st.score ∧
    (rotate_piece BH W ccw st).2.score = st.score ∧
    (hard_drop BH W fuel st).score = st.score ∧
    (∀ stp, new_piece BH W sIdx rot colorD xd st = .ok stp → stp.score = st.score) ∧
    (∀ stp, new_piece BH W sIdx rot colorD xd st = .gameOver stp → stp.score = st.score) ∧
    (∀ stp, tick BH W sIdx rot colorD xd st = .ok stp → st.score ≤ stp.score) ∧
    (∀ stp, tick BH W sIdx rot colorD xd st = .gameOver stp → st.score ≤ stp.score) := by
  have htick : ∀ stp, (tick BH W sIdx rot colorD xd st = .ok stp ∨
      tick BH W sIdx rot colorD xd st = .gameOver stp) → st.score ≤ stp.score := by
    intro stp h
    have hred : ∀ st2 : GameState,
        (new_piece BH W sIdx rot colorD xd (try_remove_line W st2) = .ok stp ∨
         new_piece BH W sIdx rot colorD xd (try_remove_line W st2) = .gameOver stp) →
        st2.score ≤ stp.score := by
      intro st2 h2
      have hsc : stp.score = (try_remove_line W st2).score := by
        rcases h2 with h2 | h2
        · exact ((new_piece_ok_fields BH W sIdx rot colorD xd _ stp h2).2.2.2.2.2)
        · exact (new_piece_gameOver_fields BH W sIdx rot colorD xd _ stp h2).2
      rw [hsc, try_remove_line_score]
      exact Nat.le_add_right _ _
    simp only [tick] at h
    split at h
    case isTrue hth =>
      rcases hm : move_piece BH W 1 0 { st with tickCnt := 0 } with ⟨b, st2⟩
      rw [hm] at h
      have hs2 : st2.score = st.score := by
        have := move_piece_score BH W 1 0 { st with tickCnt := 0 }
        rw [hm] at this
        exact this
      cases b
      · simp only [] at h
        have := hred st2 (by simpa using h)
        omega
      · rcases h with h | h
        · simp only [SpawnResult.ok.injEq] at h
          subst h
          omega
        · simp at h
    case isFalse hth =>
      rcases h with h | h
      · simp only [SpawnResult.ok.injEq] at h
        subst h
        simp
      · simp at h
  refine ⟨try_remove_line_score W st, ?_, move_piece_score BH W dy dx st,
    rotate_piece_score BH W ccw st, drop_loop_score BH W fuel st,
    fun stp h => (new_piece_ok_fields BH W sIdx rot colorD xd st stp h).2.2.2.2.2,
    fun stp h => (new_piece_gameOver_fields BH W sIdx rot colorD xd st stp h).2,
    fun stp h => htick stp (Or.inl h), fun stp h => htick stp (Or.inr h)⟩
  intro h
  simp [try_remove_line, h]

/-- The boolean result of `move_piece` is exactly `can_move`. -/
theorem move_piece_fst (BH W : Nat) (dy dx : Int) (st : GameState) :
    (move_piece BH W dy dx st).1 = can_move BH W st dy dx := by
  by_cases h : can_move BH W st dy dx = true
  · simp [move_piece, h]
  · simp only [Bool.not_eq_true] at h
    simp [move_piece, h]

/-- On success, `move_piece` shifts the anchor by the delta and leaves kind,
rotation, color, score and tick counter unchanged. -/
theorem move_piece_true_fields (BH W : Nat) (dy dx : Int) (st : GameState)
    (h : can_move BH W st dy dx = true) :
    (move_piece BH W dy dx st).2.locY = st.locY + dy ∧
    (move_piece BH W dy dx st).2.locX = st.locX + dx ∧
    (move_piece BH W dy dx st).2.shape = st.shape ∧
    (move_piece BH W dy dx st).2.rotation = st.rotation ∧
    (move_piece BH W dy dx st).2.color = st.color ∧
    (move_piece BH W dy dx st).2.tickCnt = st.tickCnt := by
  simp [move_piece, h]

/-- On failure, `move_piece` returns the state with only the board
re-stamped. -/
theorem move_piece_false_snd (BH W : Nat) (dy dx : Int) (st : GameState)
    (h : can_move BH W st dy dx = false) :
    (move_piece BH W dy dx st).2 = { st with board := restamp st } := by
  simp [move_piece, h]

/-- Re-stamping the current piece does not change `can_move`: the collision
test reads the board only through `update_piece(0)`, which erases the
stamp again. -/
theorem can_move_restamp (BH W : Nat) (dy dx : Int) (st : GameState) :
    can_move BH W { st with board := restamp st } dy dx = can_move BH W st dy dx := by
  have hbd : update_piece { st with board := restamp st } 0 = update_piece st 0 := by
    funext r c
    simp only [update_piece, restamp, stamp_shape_apply]
    by_cases hcov : covers (get_shape st.shape st.rotation) st.locY st.locX r c
    · simp [hcov]
    · simp [hcov]
  simp only [can_move, hbd]

/-- The hard-drop loop keeps kind, rotation, color, score and column, moves
the piece down by some `k ≤ fuel` rows, and — whenever the result can still
move down — stopped only because the fuel ran out (so with enough fuel it
repeats until a move fails). -/
theorem drop_loop_fields (BH W : Nat) (fuel : Nat) (st : GameState) :
    (drop_loop BH W fuel st).shape = st.shape ∧
    (drop_loop BH W fuel st).rotation = st.rotation ∧
    (drop_loop BH W fuel st).color = st.color ∧
    (drop_loop BH W fuel st).locX = st.locX ∧
    (∃ k ≤ fuel, (drop_loop BH W fuel st).locY = st.locY + (k : Int)) ∧
    (can_move BH W (drop_loop BH W fuel st) 1 0 = true →
      (drop_loop BH W fuel st).locY = st.locY + (fuel : Int)) := by
  induction fuel generalizing st with
  | zero =>
    refine ⟨rfl, rfl, rfl, rfl, ⟨0, le_refl 0, by simp [drop_loop]⟩, fun _ => by simp [drop_loop]⟩
  | succ f ih =>
    rw [drop_loop]
    rcases hm : move_piece BH W 1 0 st with ⟨b, st1⟩
    cases b
    · have hcm : can_move BH W st 1 0 = false := by
        have := move_piece_fst BH W 1 0 st
        rw [hm] at this
        exact this.symm
      have hst1 : st1 = { st with board := restamp st } := by
        have := move_piece_false_snd BH W 1 0 st hcm
        rwa [hm] at this
      subst hst1
      refine ⟨rfl, rfl, rfl, rfl, ⟨0, Nat.zero_le _, by simp⟩, fun hc => ?_⟩
      rw [can_move_restamp] at hc
      rw [hcm] at hc
      exact absurd hc (by simp)
    · have hcm : can_move BH W st 1 0 = true := by
        have := move_piece_fst BH W 1 0 st
        rw [hm] at this
        exact this.symm
      have hf := move_piece_true_fields BH W 1 0 st hcm
      have hY : st1.locY = st.locY + 1 := by have := hf.1; rw [hm] at this; exact this
      have hX : st1.locX = st.locX := by
        have := hf.2.1
        rw [hm] at this
        simpa using this
      have hS : st1.shape = st.shape := by have := hf.2.2.1; rw [hm] at this; exact this
      have hR : st1.rotation = st.rotation := by
        have := hf.2.2.2.1
        rw [hm] at this
        exact this
      have hC : st1.color = st.color := by
        have := hf.2.2.2.2.1
        rw [hm] at this
        exact this
      obtain ⟨ihS, ihR, ihC, ihX, ⟨k, hk, ihY⟩, ihStop⟩ := ih st1
      refine ⟨by rw [ihS, hS], by rw [ihR, hR], by rw [ihC, hC], by rw [ihX, hX],
        ⟨k + 1, by omega, ?_⟩, fun hc => ?_⟩
      · rw [ihY, hY]
        push_cast
        ring
      · rw [ihStop hc, hY]
        push_cast
        ring

/-- C2 (amended): the hard-drop branch of `loop` repeatedly attempts
one-row downward moves until one fails (given sufficient fuel) and resets
the tick counter to zero — and does nothing else: the score is unchanged,
no line is cleared, and no new piece is spawned (kind, rotation, color and
column of the current piece survive). -/
theorem hard_drop_spec (BH W : Nat) (fuel : Nat) (st : GameState) :
    (hard_drop BH W fuel st).tickCnt = 0 ∧
    (hard_drop BH W fuel st).score = st.score ∧
    (hard_drop BH W fuel st).shape = st.shape ∧
    (hard_drop BH W fuel st).rotation = st.rotation ∧
    (hard_drop BH W fuel st).color = st.color ∧
    (hard_drop BH W fuel st).locX = st.locX ∧
    (∃ k ≤ fuel, (hard_drop BH W fuel st).locY = st.locY + (k : Int)) ∧
    (can_move BH W (drop_loop BH W fuel st) 1 0 = true →
      (drop_loop BH W fuel st).locY = st.locY + (fuel : Int)) := by
  obtain ⟨hS, hR, hC, hX, ⟨k, hk, hY⟩, hStop⟩ := drop_loop_fields BH W fuel st
  exact ⟨rfl, drop_loop_score BH W fuel st, hS, hR, hC, hX, ⟨k, hk, hY⟩, hStop⟩

/-- An O piece spawned at the top of a 5-row, 2-column board, with an
otherwise empty board (tick counter at 7). -/
def dropState : GameState :=
  { board := fun r c => if (r = 2 ∨ r = 3) ∧ (c = 0 ∨ c = 1) then 1 else 0,
    shape := 1, rotation := 0, locY := 2, locX := 0, color := 1, score := 0, tickCnt := 7 }

/-- Counterexample to C2 as stated: hard-dropping `dropState` lands the O
piece on the floor, filling rows 3 and 4 completely, yet the hard drop
performs no lock/line-clear/spawn sequence: the score stays 0 (a failed
gravity tick's `try_remove_line` at the landed state would add 2), both
full rows are still on the board afterwards, and the current piece is
still the same piece (no spawn happened). -/
theorem hard_drop_counterexample :
    (hard_drop 5 2 10 dropState).score = 0 ∧
    (hard_drop 5 2 10 dropState).locY = 3 ∧
    (lines_to_remove 2 (drop_loop 5 2 10 dropState)).card = 2 ∧
    (try_remove_line 2 (drop_loop 5 2 10 dropState)).score = 2 ∧
    is_full_row 2 (hard_drop 5 2 10 dropState).board 3 = true ∧
    is_full_row 2 (hard_drop 5 2 10 dropState).board 4 = true ∧
    (hard_drop 5 2 10 dropState).shape = dropState.shape ∧
    (hard_drop 5 2 10 dropState).tickCnt = 0 := by decide

/-- The number of removed rows strictly below (screen-wise: with larger row
index than) row `s`. -/
def below_count (R : Finset Nat) (s : Nat) : Nat := (R.filter (fun r => s < r)).card

/-- For a non-removed row `s`, its compacted position `s + below_count R s`
equals `R.card` plus the number of non-removed rows above it. -/
theorem key_pos (R : Finset Nat) {s : Nat} (hs : s ∉ R) :
    s + below_count R s = R.card + Nat.count (fun t => ¬ t ∈ R) s := by
  have hA : ((Finset.range s).filter (fun t => t ∈ R)) = R.filter (fun r => r < s) := by
    ext t
    simp only [Finset.mem_filter, Finset.mem_range]
    exact and_comm
  have hcard := Finset.filter_card_add_filter_neg_card_eq_card
    (s := Finset.range s) (p := fun t => t ∈ R)
  rw [hA, Finset.card_range] at hcard
  have hcount : Nat.count (fun t => ¬ t ∈ R) s = ((Finset.range s).filter (fun t => ¬ t ∈ R)).card := by
    rw [Nat.count_eq_card_filter_range]
  have hsplit := Finset.filter_card_add_filter_neg_card_eq_card
    (s := R) (p := fun r => r < s)
  have hneg : R.filter (fun r => ¬ r < s) = R.filter (fun r => s < r) := by
    apply Finset.filter_congr
    intro r hr
    have : r ≠ s := fun he => hs (he ▸ hr)
    constructor
    · intro h
      omega
    · intro h
      omega
  rw [hneg] at hsplit
  rw [below_count, hcount]
  omega

/-- Compacted positions are strictly monotone over non-removed rows
(relative order is preserved). -/
theorem key_mono (R : Finset Nat) {s t : Nat} (hs : s ∉ R) (ht : t ∉ R) (h : s < t) :
    s + below_count R s < t + below_count R t := by
  rw [key_pos R hs, key_pos R ht]
  have := Nat.count_strict_mono (p := fun x => ¬ x ∈ R) hs h
  omega

/-- Compacted positions determine the source row. -/
theorem key_inj (R : Finset Nat) {s t : Nat} (hs : s ∉ R) (ht : t ∉ R)
    (h : s + below_count R s = t + below_count R t) : s = t := by
  rcases lt_trichotomy s t with hlt | he | hgt
  · exact absurd h (Nat.ne_of_lt (key_mono R hs ht hlt))
  · exact he
  · exact absurd h.symm (Nat.ne_of_lt (key_mono R ht hs hgt))

/-- The complement of a finite removal set is infinite. -/
theorem not_mem_infinite (R : Finset Nat) : {t : Nat | ¬ t ∈ R}.Infinite := by
  have hc : ((R : Set Nat))ᶜ = {t : Nat | ¬ t ∈ R} := by
    ext t
    simp
  rw [← hc]
  exact R.finite_toSet.infinite_compl

/-- Every position at or beyond `R.card` is the compacted position of some
non-removed row. -/
theorem key_surj (R : Finset Nat) {m : Nat} (hm : R.card ≤ m) :
    ∃ s, ¬ s ∈ R ∧ s + below_count R s = m := by
  have hinf := not_mem_infinite R
  have hmem := Nat.nth_mem_of_infinite hinf (m - R.card)
  refine ⟨Nat.nth (fun t => ¬ t ∈ R) (m - R.card), hmem, ?_⟩
  rw [key_pos R hmem, Nat.count_nth_of_infinite hinf]
  omega

/-- A non-removed row's compacted position is at least `R.card`. -/
theorem key_ge (R : Finset Nat) {s : Nat} (hs : ¬ s ∈ R) :
    R.card ≤ s + below_count R s := by
  rw [key_pos R hs]
  omega

/-- A row above the maximal removed row compacts to a position no deeper
than that maximum. -/
theorem below_count_le_max (R : Finset Nat) (hne : R.Nonempty) {s : Nat}
    (h : s < R.max' hne) : s + below_count R s ≤ R.max' hne := by
  have hsub : R.filter (fun r => s < r) ⊆ Finset.Ioc s (R.max' hne) := by
    intro r hr
    rw [Finset.mem_filter] at hr
    rw [Finset.mem_Ioc]
    exact ⟨hr.2, Finset.le_max' R r hr.1⟩
  have := Finset.card_le_card hsub
  rw [Nat.card_Ioc] at this
  rw [below_count]
  omega

/-- Strictly above the maximal removed row there is something removed below. -/
theorem below_count_pos (R : Finset Nat) (hne : R.Nonempty) {s : Nat}
    (h : s < R.max' hne) : 0 < below_count R s := by
  have hmem : R.max' hne ∈ R.filter (fun r => s < r) :=
    Finset.mem_filter.mpr ⟨R.max'_mem hne, h⟩
  exact Finset.card_pos.mpr ⟨_, hmem⟩

/-- At or beyond the maximal removed row nothing is removed below. -/
theorem below_count_eq_zero (R : Finset Nat) (hne : R.Nonempty) {s : Nat}
    (h : R.max' hne ≤ s) : below_count R s = 0 := by
  rw [below_count, Finset.card_eq_zero, Finset.filter_eq_empty_iff]
  intro r hr
  have := Finset.le_max' R r hr
  omega

/-- `find_src` finds exactly the greatest usable source strictly below `y`:
not removed, not moved, with everything between it and `y` unusable. -/
theorem find_src_some_iff (R : Finset Nat) (moved : Nat → Bool) (y s : Nat) :
    find_src R moved y = some s ↔
      (s < y ∧ ¬(s ∈ R ∨ moved s = true) ∧
        ∀ t, s < t → t < y → (t ∈ R ∨ moved t = true)) := by
  induction y with
  | zero => simp [find_src]
  | succ c ih =>
    rw [find_src]
    by_cases hbad : c ∈ R ∨ moved c = true
    · rw [if_pos hbad, ih]
      constructor
      · rintro ⟨h1, h2, h3⟩
        refine ⟨Nat.lt_succ_of_lt h1, h2, fun t ht1 ht2 => ?_⟩
        rcases Nat.lt_succ_iff_lt_or_eq.mp ht2 with h | h
        · exact h3 t ht1 h
        · subst h
          exact hbad
      · rintro ⟨h1, h2, h3⟩
        have hsc : s ≠ c := fun he => h2 (he ▸ hbad)
        have h1' : s < c := by
          rcases Nat.lt_succ_iff_lt_or_eq.mp h1 with h | h
          · exact h
          · exact absurd h hsc
        exact ⟨h1', h2, fun t ht1 ht2 => h3 t ht1 (Nat.lt_succ_of_lt ht2)⟩
    · rw [if_neg hbad]
      constructor
      · intro h
        injection h with h
        subst h
        exact ⟨Nat.lt_succ_self _, hbad, fun t ht1 ht2 => (by omega : False).elim⟩
      · rintro ⟨h1, h2, h3⟩
        rcases Nat.lt_succ_iff_lt_or_eq.mp h1 with h | h
        · exact absurd (h3 c h (Nat.lt_succ_self c)) hbad
        · rw [h]

/-- `find_src` fails exactly when everything below `y` is unusable. -/
theorem find_src_none_iff (R : Finset Nat) (moved : Nat → Bool) (y : Nat) :
    find_src R moved y = none ↔ ∀ t, t < y → (t ∈ R ∨ moved t = true) := by
  induction y with
  | zero => simp [find_src]
  | succ c ih =>
    rw [find_src]
    by_cases hbad : c ∈ R ∨ moved c = true
    · rw [if_pos hbad, ih]
      constructor
      · intro h t ht
        rcases Nat.lt_succ_iff_lt_or_eq.mp ht with h1 | h1
        · exact h t h1
        · subst h1
          exact hbad
      · intro h t ht
        exact h t (Nat.lt_succ_of_lt ht)
    · rw [if_neg hbad]
      exact ⟨fun h => absurd h (by simp), fun h => absurd (h c (Nat.lt_succ_self c)) hbad⟩

/-- Invariant of the compaction loop on entry to the iteration for
destination row `y` (destinations `y+1 .. yTop` already processed):
rows at or above `y` and rows below `yTop` are untouched; each processed
destination holds its source row's content (columns `< W`) or zeros when it
had no source; `moved` marks exactly the consumed sources. -/
def Inv (W : Nat) (R : Finset Nat) (bd : Board) (yTop y : Nat)
    (bd2 : Board) (moved : Nat → Bool) : Prop :=
  (∀ r, (r ≤ y ∨ yTop < r) → ∀ x, bd2 r x = bd r x) ∧
  (∀ s, ¬ s ∈ R → y < s + below_count R s → s + below_count R s ≤ yTop →
    ∀ x, x < W → bd2 (s + below_count R s) x = bd s x) ∧
  (∀ r, y < r → r ≤ yTop → r < R.card → ∀ x, x < W → bd2 r x = 0) ∧
  (∀ t, moved t = true ↔ (¬ t ∈ R ∧ y < t + below_count R t ∧ t + below_count R t ≤ yTop))

/-- Running the compaction loop from a state satisfying the invariant at
level `y` produces a board satisfying the three board clauses at level 2
(the loop stops below `invisible_lines_ + 1 = 3`). -/
theorem compact_loop_clauses (W : Nat) (R : Finset Nat) (bd : Board)
    (hne : R.Nonempty) :
    ∀ y, 2 ≤ y → y ≤ R.max' hne → ∀ bd2 moved, Inv W R bd (R.max' hne) y bd2 moved →
      (∀ r, (r ≤ 2 ∨ R.max' hne < r) → ∀ x, compact_loop W R y bd2 moved r x = bd r x) ∧
      (∀ s, ¬ s ∈ R → 2 < s + below_count R s → s + below_count R s ≤ R.max' hne →
        ∀ x, x < W → compact_loop W R y bd2 moved (s + below_count R s) x = bd s x) ∧
      (∀ r, 2 < r → r ≤ R.max' hne → r < R.card → ∀ x, x < W →
        compact_loop W R y bd2 moved r x = 0) := by
  intro y
  induction y with
  | zero => omega
  | succ c ih =>
    intro h2 hle bd2 moved hInv
    obtain ⟨i1, i2, i3, i4⟩ := hInv
    by_cases hc3 : c + 1 < 3
    · have hc2 : c + 1 = 2 := by omega
      rw [compact_loop, if_pos hc3]
      refine ⟨fun r hr x => i1 r (by omega) x,
        fun s hs hgt hle2 x hx => i2 s hs (by omega) hle2 x hx,
        fun r h1 h2r h3 x hx => i3 r (by omega) h2r h3 x hx⟩
    · rw [compact_loop, if_neg hc3]
      have hTopR : R.max' hne ∈ R := R.max'_mem hne
      by_cases hk : R.card ≤ c + 1
      · obtain ⟨sStar, hsR, hsEq⟩ := key_surj R hk
        have hsltTop : sStar < R.max' hne := by
          by_contra hge
          push_neg at hge
          have hbc0 := below_count_eq_zero R hne hge
          have heq : sStar = R.max' hne := by omega
          exact hsR (by rw [heq]; exact hTopR)
        have hbcpos := below_count_pos R hne hsltTop
        have hfind : find_src R moved (c + 1) = some sStar := by
          rw [find_src_some_iff]
          refine ⟨by omega, ?_, ?_⟩
          · rintro (h | h)
            · exact hsR h
            · rw [i4] at h
              exact absurd h.2.1 (by omega)
          · intro t ht1 ht2
            by_cases htR : t ∈ R
            · exact Or.inl htR
            · right
              rw [i4]
              refine ⟨htR, ?_, below_count_le_max R hne (by omega)⟩
              have := key_mono R hsR htR ht1
              omega
        simp only [hfind]
        apply ih (by omega) (by omega)
        refine ⟨?_, ?_, ?_, ?_⟩
        · intro r hr x
          simp only [copy_line]
          rw [if_neg (by rintro ⟨h1, -⟩; omega)]
          exact i1 r (by omega) x
        · intro s hs hgt hle2 x hxW
          simp only [copy_line]
          by_cases hpos : s + below_count R s = c + 1
          · have hss : s = sStar := key_inj R hs hsR (by omega)
            rw [if_pos ⟨hpos, hxW⟩, hss]
            exact i1 sStar (Or.inl (by omega)) x
          · rw [if_neg (by rintro ⟨h1, -⟩; exact hpos h1)]
            exact i2 s hs (by omega) hle2 x hxW
        · intro r hgt hler hcard x hxW
          exact absurd hgt (by omega)
        · intro t
          constructor
          · intro ht
            dsimp only at ht
            by_cases hts : t = sStar
            · subst hts
              exact ⟨hsR, by omega, by omega⟩
            · rw [if_neg hts] at ht
              rw [i4] at ht
              exact ⟨ht.1, by omega, ht.2.2⟩
          · rintro ⟨htR, hgt, hle2⟩
            dsimp only
            by_cases hts : t = sStar
            · rw [if_pos hts]
            · rw [if_neg hts, i4]
              have hnot : t + below_count R t ≠ c + 1 :=
                fun he => hts (key_inj R htR hsR (by omega))
              exact ⟨htR, by omega, hle2⟩
      · have hfind : find_src R moved (c + 1) = none := by
          rw [find_src_none_iff]
          intro t ht
          by_cases htR : t ∈ R
          · exact Or.inl htR
          · right
            rw [i4]
            have hge := key_ge R htR
            exact ⟨htR, by omega, below_count_le_max R hne (by omega)⟩
        simp only [hfind]
        apply ih (by omega) (by omega)
        refine ⟨?_, ?_, ?_, ?_⟩
        · intro r hr x
          simp only [clear_line]
          rw [if_neg (by rintro ⟨h1, -⟩; omega)]
          exact i1 r (by omega) x
        · intro s hs hgt hle2 x hxW
          have hge := key_ge R hs
          simp only [clear_line]
          rw [if_neg (by rintro ⟨h1, -⟩; omega)]
          exact i2 s hs (by omega) hle2 x hxW
        · intro r hgt hler hcard x hxW
          simp only [clear_line]
          by_cases hr : r = c + 1
          · rw [if_pos ⟨hr, hxW⟩]
          · rw [if_neg (fun hcon => hr hcon.1)]
            exact i3 r (by omega) hler hcard x hxW
        · intro t
          rw [i4]
          constructor
          · rintro ⟨h1, h2c, h3⟩
            exact ⟨h1, by omega, h3⟩
          · rintro ⟨h1, h2c, h3⟩
            have hge := key_ge R h1
            exact ⟨h1, by omega, h3⟩

/-- C1 (amended): on a board whose two invisible buffer rows (rows 0 and 1)
are empty, `clear_and_compact` applied to a non-empty set `R` of full rows
(non-contiguous allowed) removes exactly the rows of `R`: every non-removed
row `s` reappears at row `s + below_count R s` (shifted down by the number
of removed rows below it, relative order preserved by the strict
monotonicity clause), and the `R.card` vacated top rows are all zero.
Without the empty-buffer hypothesis the claim fails, because the loop never
touches rows 0 and 1 (see the counterexample). -/
theorem clear_and_compact_spec (W : Nat) (R : Finset Nat) (bd : Board)
    (hW : 0 < W) (hne : R.Nonempty)
    (hfull : ∀ r ∈ R, ∀ x < W, bd r x ≠ 0)
    (hbuf : ∀ x, bd 0 x = 0 ∧ bd 1 x = 0) :
    (∀ s, ¬ s ∈ R → ∀ x < W, clear_and_compact W R bd (s + below_count R s) x = bd s x) ∧
    (∀ r, r < R.card → ∀ x < W, clear_and_compact W R bd r x = 0) ∧
    (∀ s t, ¬ s ∈ R → ¬ t ∈ R → s < t →
      s + below_count R s < t + below_count R t) := by
  have hR2 : ∀ r ∈ R, 2 ≤ r := by
    intro r hr
    by_contra hlt
    push_neg at hlt
    have hne0 := hfull r hr 0 hW
    interval_cases r
    · exact hne0 (hbuf 0).1
    · exact hne0 (hbuf 0).2
  have hTopR : R.max' hne ∈ R := R.max'_mem hne
  have h2M : 2 ≤ R.max' hne := hR2 _ hTopR
  have hInv0 : Inv W R bd (R.max' hne) (R.max' hne) bd (fun _ => false) := by
    refine ⟨fun r hr x => rfl, fun s hs hgt hle2 x hx => absurd hgt (by omega),
      fun r h1 h2r h3 x hx => absurd h1 (by omega), fun t => ?_⟩
    constructor
    · intro h
      exact absurd h (by simp)
    · rintro ⟨-, h2c, h3⟩
      exact absurd h2c (by omega)
  obtain ⟨c1, c2, c3⟩ := compact_loop_clauses W R bd hne (R.max' hne) h2M (le_refl _)
    bd (fun _ => false) hInv0
  have hcc : clear_and_compact W R bd =
      clear_line W (compact_loop W R (R.max' hne) bd (fun _ => false)) 2 := by
    rw [clear_and_compact, dif_pos hne]
  have hkpos : 0 < R.card := Finset.Nonempty.card_pos hne
  refine ⟨?_, ?_, fun s t hs ht h => key_mono R hs ht h⟩
  · intro s hs x hxW
    rw [hcc]
    simp only [clear_line]
    by_cases hp2 : s + below_count R s = 2
    · rw [if_pos ⟨hp2, hxW⟩]
      have hs2 : s ≠ 2 := by
        intro he
        subst he
        have hbc : below_count R 2 = 0 := by omega
        have hmle : R.max' hne ≤ 2 := by
          by_contra hgt2
          push_neg at hgt2
          have := below_count_pos R hne hgt2
          omega
        have heq : R.max' hne = 2 := by omega
        exact hs (by rw [← heq]; exact hTopR)
      have hs01 : s = 0 ∨ s = 1 := by omega
      rcases hs01 with h | h <;> subst h
      · exact ((hbuf x).1).symm
      · exact ((hbuf x).2).symm
    · rw [if_neg (fun hcon => hp2 hcon.1)]
      by_cases hple : s + below_count R s ≤ R.max' hne
      · by_cases hp2lt : 2 < s + below_count R s
        · exact c2 s hs hp2lt hple x hxW
        · have hge := key_ge R hs
          have hp1 : s + below_count R s = 1 := by omega
          have hc1 := c1 (s + below_count R s) (Or.inl (by omega)) x
          rw [hc1, hp1]
          have hs01 : s = 0 ∨ s = 1 := by omega
          rcases hs01 with h | h <;> subst h
          · rw [(hbuf x).2, (hbuf x).1]
          · rfl
      · push_neg at hple
        have hsgt : R.max' hne < s := by
          by_contra hle2
          push_neg at hle2
          have hlt : s < R.max' hne := lt_of_le_of_ne hle2 (fun he => hs (he ▸ hTopR))
          have := below_count_le_max R hne hlt
          omega
        have hbc0 : below_count R s = 0 := below_count_eq_zero R hne (le_of_lt hsgt)
        have hps : s + below_count R s = s := by omega
        rw [hps]
        exact c1 s (Or.inr hsgt) x
  · intro r hr x hxW
    rw [hcc]
    simp only [clear_line]
    by_cases hr2 : r = 2
    · rw [if_pos ⟨hr2, hxW⟩]
    · rw [if_neg (fun hcon => hr2 hcon.1)]
      have hkle : R.card + 1 ≤ R.max' hne := by
        have hsub : R ⊆ Finset.Icc 2 (R.max' hne) := fun q hq =>
          Finset.mem_Icc.mpr ⟨hR2 q hq, Finset.le_max' R q hq⟩
        have := Finset.card_le_card hsub
        rw [Nat.card_Icc] at this
        omega
      by_cases hr3 : 3 ≤ r
      · exact c3 r (by omega) (by omega) hr x hxW
      · have hr01 : r = 0 ∨ r = 1 := by omega
        have hcl := c1 r (Or.inl (by omega)) x
        rw [hcl]
        rcases hr01 with h | h <;> subst h
        · exact (hbuf x).1
        · exact (hbuf x).2

/-- The spec's height-10 compaction instance with rows 2, 5, 7 full, the
other rows arbitrary but not full — in particular buffer row 0 holds a
block at column 0. -/
def cexBoard : Board := fun r x =>
  if r = 0 ∧ x = 0 then 5
  else if (r = 2 ∨ r = 5 ∨ r = 7) ∧ x < 2 then 1
  else 0

/-- Counterexample to C1 as stated: on the width-2, height-10 board
`cexBoard` with exactly rows {2,5,7} full, compaction leaves the block in
buffer row 0 in place — the top 3 rows are *not* all zero (row 0, column 0
still holds 5). -/
theorem clear_and_compact_counterexample :
    ({2, 5, 7} : Finset Nat).Nonempty ∧
    (∀ r ∈ ({2, 5, 7} : Finset Nat), ∀ x < 2, cexBoard r x ≠ 0) ∧
    (∀ r, r < 10 → ¬ r ∈ ({2, 5, 7} : Finset Nat) → ¬ is_full_row 2 cexBoard r = true) ∧
    ¬ (∀ r < 3, ∀ x < 2, clear_and_compact 2 {2, 5, 7} cexBoard r x = 0) ∧
    clear_and_compact 2 {2, 5, 7} cexBoard 0 0 = 5 := by decide

/-- The same instance with empty buffer rows, for the amended theorem's
witness. -/
def bufBoard : Board := fun r x =>
  if (r = 2 ∨ r = 5 ∨ r = 7) ∧ x < 2 then 1
  else if r = 3 ∧ x = 0 then 4
  else if r = 4 ∧ x = 1 then 6
  else 0

/-- Witness for C1's amended theorem on `bufBoard` with rows {2,5,7}
removed. -/
theorem clear_and_compact_spec_witness :
    ((0 : Nat) < 2 ∧ ({2, 5, 7} : Finset Nat).Nonempty ∧
      (∀ r ∈ ({2, 5, 7} : Finset Nat), ∀ x < 2, bufBoard r x ≠ 0) ∧
      (∀ x, bufBoard 0 x = 0 ∧ bufBoard 1 x = 0)) ∧
    ((∀ s, ¬ s ∈ ({2, 5, 7} : Finset Nat) → ∀ x < 2,
        clear_and_compact 2 {2, 5, 7} bufBoard (s + below_count {2, 5, 7} s) x = bufBoard s x) ∧
     (∀ r, r < ({2, 5, 7} : Finset Nat).card → ∀ x < 2,
        clear_and_compact 2 {2, 5, 7} bufBoard r x = 0) ∧
     (∀ s t, ¬ s ∈ ({2, 5, 7} : Finset Nat) → ¬ t ∈ ({2, 5, 7} : Finset Nat) → s < t →
        s + below_count {2, 5, 7} s < t + below_count {2, 5, 7} t)) :=
  ⟨⟨by decide, by decide, by decide, fun x => ⟨rfl, rfl⟩⟩,
    clear_and_compact_spec 2 {2, 5, 7} bufBoard (by decide) (by decide) (by decide)
      (fun x => ⟨rfl, rfl⟩)⟩

end Tetris
